import Mathlib

set_option maxRecDepth 8000

/-!
Verification of the semantic indexing and retrieval subsystem of the
Synapse file-manager server (src/server.js, the second server in that
file).  Text is modelled as `List Char`, JavaScript numbers as exact
rationals (vector entries) and reals (scores); the one place where IEEE
semantics are observable, division by a zero denominator in the cosine
score, is modelled explicitly (`none` stands for NaN).
-/

/- ### Basic text helpers -/

/-- JS `stats.name.startsWith(".")`: true when the first character is a dot. -/
def startsWithDot : List Char → Bool
  | [] => false
  | c :: _ => c = '.'

/-- Helper for `includesChars`: does `pat` occur at the very front of `l`? -/
def leadsWith : List Char → List Char → Bool
  | [], _ => true
  | _ :: _, [] => false
  | p :: ps, c :: cs => p = c && leadsWith ps cs

/-- JS `l.includes(pat)` on strings: `pat` occurs somewhere inside `l`. -/
def includesChars (l pat : List Char) : Bool :=
  match l with
  | [] => pat.isEmpty
  | _ :: t => leadsWith pat l || includesChars t pat

/-- server.js `normalizePath`: backslashes are replaced by forward slashes.
The `path.normalize` dot-segment collapsing is not modelled; no claim
depends on it, only on equality of already-normalized paths. -/
def normalizePath (p : List Char) : List Char :=
  p.map (fun c => if c = '\\' then '/' else c)

/- ### Data model -/

/-- One chunk record of the vector store, as pushed in `/api/index-files`:
`{id, name, path, embedding, preview}`.  The JS `id` embeds `Date.now()`
and `Math.random()`; it is opaque and no claim depends on it, so it is
kept as an uninterpreted string field. -/
structure ChunkRecord where
  id : List Char
  name : List Char
  path : List Char
  embedding : List ℚ
  preview : List Char
deriving DecidableEq

/-- One progress line written by `/api/index-files`:
`{filesProcessed, totalFiles, status: "indexing"}`. -/
structure ScanProgress where
  filesProcessed : ℕ
  totalFiles : ℕ
  status : List Char
deriving DecidableEq

/- ### Chunker (server.js `chunkText`) -/

/-- The loop body of `chunkText`: starting at offset `i`, push
`text.substring(i, i + size)` and advance by `step` while `i < text.length`.
JS `substring` clamps at the end of the string, which is `drop`/`take`.
The `fuel` argument makes the recursion structural; `chunkText` supplies
`text.length + 1`, which is enough fuel whenever `step ≥ 1` (the loop runs
at most `text.length` times). -/
def chunkTextAux (text : List Char) (size step : ℕ) : ℕ → ℕ → List (List Char)
  | 0, _ => []
  | fuel + 1, i =>
    if i < text.length then ((text.drop i).take size) :: chunkTextAux text size step fuel (i + step)
    else []

/-- server.js `chunkText(text, chunkSize = 1000, overlap = 200)`:
`for (let i = 0; i < text.length; i += (chunkSize - overlap))
   chunks.push(text.substring(i, i + chunkSize))`. -/
def chunkText (text : List Char) (chunkSize : ℕ := 1000) (overlap : ℕ := 200) : List (List Char) :=
  chunkTextAux text chunkSize (chunkSize - overlap) (text.length + 1) 0

/-- Reassembly described by the spec: the first chunk, followed by every
later chunk with its first `overlap` characters removed, concatenated. -/
def reassemble (overlap : ℕ) : List (List Char) → List Char
  | [] => []
  | c :: cs => c ++ (cs.map (List.drop overlap)).flatten

/- ### Vector store merge (server.js /api/index-files end handler) -/

/-- server.js line 478:
`vectorStore = [...vectorStore.filter(v => !newVectors.find(n => n.path === v.path)), ...newVectors]`.
`find` returns the first matching record (truthy) or `undefined` (falsy),
so an existing record is kept exactly when no new record has its path. -/
def merge (existing newRecords : List ChunkRecord) : List ChunkRecord :=
  existing.filter (fun v => !(newRecords.any (fun n => n.path = v.path))) ++ newRecords

/- ### Cosine similarity (server.js `cosineSimilarity`) -/

/-- The accumulator loop of `cosineSimilarity`: over `i < vecA.length`,
`dot += vecA[i]*vecB[i]; normA += vecA[i]*vecA[i]; normB += vecB[i]*vecB[i]`.
Rational addition is associative, so the left-to-right loop accumulation is
written as structural recursion.  When `vecB` is shorter than `vecA`, JS
reads `undefined` and the whole result is NaN; that regime is not modelled
(`vecB[i]` is taken as 0) and every theorem below assumes equal lengths,
as the claims do. -/
def cosineAcc : List ℚ → List ℚ → ℚ × ℚ × ℚ
  | [], _ => (0, 0, 0)
  | a :: as, bs =>
    let b := bs.headD 0
    let r := cosineAcc as bs.tail
    (a * b + r.1, a * a + r.2.1, b * b + r.2.2)

/-- The value `dot / (Math.sqrt(normA) * Math.sqrt(normB))` as a real
number.  This equals the JS float outcome (up to exact arithmetic)
whenever the denominator is nonzero; the zero-denominator (NaN) case is
modelled by `cosineSimilarity` below. -/
noncomputable def cosineScoreR (vecA vecB : List ℚ) : ℝ :=
  ((cosineAcc vecA vecB).1 : ℝ) /
    (Real.sqrt ((cosineAcc vecA vecB).2.1 : ℝ) * Real.sqrt ((cosineAcc vecA vecB).2.2 : ℝ))

/-- server.js `cosineSimilarity(vecA, vecB)` with IEEE semantics made
explicit: the denominator `sqrt(normA)*sqrt(normB)` is zero exactly when
`normA = 0` or `normB = 0` (each is a sum of squares); in that case the
numerator `dot` is also zero (see `specDot_eq_zero_left`), so JS computes
`0/0 = NaN`, modelled as `none`.  Otherwise the arithmetic outcome of the
formula is returned. -/
noncomputable def cosineSimilarity (vecA vecB : List ℚ) : Option ℝ :=
  if (cosineAcc vecA vecB).2.1 = 0 ∨ (cosineAcc vecA vecB).2.2 = 0 then none
  else some (cosineScoreR vecA vecB)

/-- Sum of squares of a vector, used to state norm conditions decidably. -/
def sumSq (v : List ℚ) : ℚ := (v.map (fun x => x * x)).sum

/-- The dot product as the spec writes it (pointwise product, summed). -/
def specDot (a b : List ℚ) : ℚ := (List.zipWith (fun x y => x * y) a b).sum

/-- The Euclidean norm as the spec writes it. -/
noncomputable def specNorm (v : List ℚ) : ℝ := Real.sqrt ((sumSq v : ℚ) : ℝ)

/-- The retrieval score exactly as the spec states it:
`dot(query, record) / (normQ * normR)`. -/
noncomputable def specCosineScore (a b : List ℚ) : ℝ :=
  ((specDot a b : ℚ) : ℝ) / (specNorm a * specNorm b)

/- ### Retrieval pipeline (server.js /api/semantic-search) -/

/-- One element of `rawResults`: the spread `{...doc, score}`.  The score
field holds the real value of the cosine formula; the theorems below
restrict to stores and queries with nonzero norms, where this value is
exactly what the JS float computation produces (no NaN). -/
structure ScoredRecord where
  record : ChunkRecord
  score : ℝ

/-- The comparator `(a, b) => b.score - a.score`: `a` may precede `b`
exactly when the comparator is nonpositive, i.e. `b.score ≤ a.score`. -/
def scoreDescOrder (a b : ScoredRecord) : Prop := b.score ≤ a.score

noncomputable instance : DecidableRel scoreDescOrder :=
  fun a b => Real.decidableLE b.score a.score

instance : IsTotal ScoredRecord scoreDescOrder :=
  ⟨fun a b => le_total b.score a.score⟩

instance : IsTrans ScoredRecord scoreDescOrder :=
  ⟨fun _ _ _ h1 h2 => le_trans h2 h1⟩

/-- `vectorStore.map(doc => ({...doc, score: cosineSimilarity(queryEmbedding, doc.embedding)}))`. -/
noncomputable def scoreAll (q : List ℚ) (store : List ChunkRecord) : List ScoredRecord :=
  store.map (fun doc => ⟨doc, cosineScoreR q doc.embedding⟩)

/-- `.sort((a, b) => b.score - a.score)`.  `Array.prototype.sort` is
stable, and on NaN-free scores this comparator is a total preorder, so
the result is the unique stable descending order, which is what stable
insertion sort produces. -/
noncomputable def sortRaw (l : List ScoredRecord) : List ScoredRecord :=
  List.insertionSort scoreDescOrder l

/-- `.filter(doc => doc.score > 0.25)`. -/
noncomputable def filterFloor (l : List ScoredRecord) : List ScoredRecord :=
  l.filter (fun r => decide ((1 / 4 : ℝ) < r.score))

/-- One result object of `/api/semantic-search`, with the nested
`analysis` object flattened into fields. -/
structure SearchHit where
  name : List Char
  path : List Char
  keywords : List (List Char)
  summary : List Char
  category : List Char
  tags : List (List Char)
  sensitivity : List Char

/-- The object stored by `uniqueFiles.set(r.path, {...})`.
`(r.score * 100).toFixed(0)` rounds to the nearest integer, ties toward
the larger integer, which is exactly `round`; `r.preview.substring(0, 150)`
is `take 150`, and the ellipsis is appended unconditionally. -/
noncomputable def mkHit (r : ScoredRecord) : SearchHit :=
  { name := r.record.name
    path := r.record.path
    keywords := [(toString (round (r.score * 100))).toList ++ ("% Match").toList]
    summary := r.record.preview.take 150 ++ ("...").toList
    category := ("Semantic Result").toList
    tags := [("Vector Match").toList]
    sensitivity := ("Low").toList }

/-- The `uniqueFiles` map loop: each record is inserted only when its
path has not been seen; `Map` preserves insertion order, so
`Array.from(uniqueFiles.values())` lists the first occurrence per path
in input order. -/
noncomputable def dedupGo (seen : List (List Char)) : List ScoredRecord → List SearchHit
  | [] => []
  | r :: rs =>
    if r.record.path ∈ seen then dedupGo seen rs
    else mkHit r :: dedupGo (r.record.path :: seen) rs

/-- The full result list of `/api/semantic-search` once the query
embedding is known: score, sort descending, filter by the 0.25 floor,
deduplicate by path, `slice(0, 12)`. -/
noncomputable def semanticSearchResults (q : List ℚ) (store : List ChunkRecord) : List SearchHit :=
  (dedupGo [] (filterFloor (sortRaw (scoreAll q store)))).take 12

/-- What the endpoint does before any remote work: either it rejects the
request (HTTP 400) or it sends the query string to the remote embedding
provider.  A `reject` outcome involves no remote call. -/
inductive SearchAction where
  | reject (status : ℕ) (msg : List Char)
  | callEmbed (input : List Char)
deriving DecidableEq

/-- server.js line 496:
`if (!query || vectorStore.length === 0) return res.status(400).json({error: "Invalid query or empty index."})`;
otherwise the handler immediately calls `client.embeddings.create` with
the query.  A string is falsy exactly when it is empty. -/
def semanticSearchGate (query : List Char) (store : List ChunkRecord) : SearchAction :=
  if query = [] ∨ store = [] then .reject 400 (("Invalid query or empty index.").toList)
  else .callEmbed query

/- ### Indexing pipeline (server.js /api/index-files) -/

/-- A file yielded by the directory walker: its directory and its name. -/
structure FileEntry where
  root : List Char
  name : List Char
deriving DecidableEq

/-- `path.join(root, stats.name)`, modelled as concatenation with one
separator. -/
def entryPath (f : FileEntry) : List Char := f.root ++ '/' :: f.name

/-- The skip condition of the walker handler:
`stats.name.startsWith(".") || filePath.includes("node_modules")`. -/
def skipEntry (f : FileEntry) : Bool :=
  startsWithDot f.name || includesChars (entryPath f) (("node_modules").toList)

/-- State threaded through one indexing run: the accumulated new records,
the two counters, and the progress lines written so far. -/
structure IndexRunState where
  newVectors : List ChunkRecord
  filesProcessed : ℕ
  totalFiles : ℕ
  events : List ScanProgress

/-- The `walker.on("file")` handler of `/api/index-files` for one file.
`extract` is the external `extractText` collaborator, which in this
server resolves with the empty string on extraction errors (it never
rejects); `embed` is the remote embedding provider for one chunk.
Hidden files and dependency caches are skipped without touching the
counters; otherwise `totalFiles++`, the text is extracted, and when
`content && content.length > 50` (equivalently, length above 50) up to
the first 5 chunks are embedded and pushed; finally `filesProcessed++`
and one progress line is written. -/
def processFile (extract : List Char → List Char) (embed : List Char → List ℚ)
    (st : IndexRunState) (f : FileEntry) : IndexRunState :=
  if skipEntry f then st
  else
    let content := extract (entryPath f)
    let newVectors :=
      if 50 < content.length then
        st.newVectors ++ ((chunkText content).take 5).map (fun chunk =>
          { id := entryPath f
            name := f.name
            path := normalizePath (entryPath f)
            embedding := embed chunk
            preview := chunk })
      else st.newVectors
    { newVectors := newVectors
      filesProcessed := st.filesProcessed + 1
      totalFiles := st.totalFiles + 1
      events := st.events ++
        [⟨st.filesProcessed + 1, st.totalFiles + 1, ("indexing").toList⟩] }

/-- One `/api/index-files` run over the files yielded by the walkers, in
the order the walkers deliver them.  The final completion line carries no
`filesProcessed` field and is not a `ScanProgress`, so it is not part of
`events`. -/
def indexRun (extract : List Char → List Char) (embed : List Char → List ℚ)
    (files : List FileEntry) : IndexRunState :=
  files.foldl (processFile extract embed) ⟨[], 0, 0, []⟩

/- ### Concrete sample data, used as inputs of witness theorems -/

/-- A sample stored record. -/
def recA : ChunkRecord :=
  ⟨("id1").toList, ("a.txt").toList, ("docs/a.txt").toList, [1], ("hello").toList⟩

/-- A sample record whose path duplicates the path of `recA`. -/
def recB : ChunkRecord :=
  ⟨("id2").toList, ("a.txt").toList, ("docs/a.txt").toList, [2], ("world").toList⟩

/- ### Helper lemmas: chunker -/

theorem chunkTextAux_length (text : List Char) (size step : ℕ) (hstep : 0 < step) :
    ∀ fuel i, text.length ≤ i + fuel * step →
      (chunkTextAux text size step fuel i).length = (text.length - i + (step - 1)) / step := by
  intro fuel
  induction fuel with
  | zero =>
    intro i hi
    simp only [Nat.zero_mul, Nat.add_zero] at hi
    have hz : text.length - i = 0 := by omega
    simp [chunkTextAux, hz, Nat.div_eq_of_lt (by omega : step - 1 < step)]
  | succ fuel ih =>
    intro i hi
    rw [Nat.succ_mul] at hi
    by_cases hlt : i < text.length
    · have hrec := ih (i + step) (by omega)
      rw [chunkTextAux, if_pos hlt, List.length_cons, hrec]
      have hd : 1 ≤ text.length - i := by omega
      set d : ℕ := text.length - i with hdd
      have h1 : text.length - (i + step) = d - step := by omega
      rw [h1]
      have h2 : d + (step - 1) = (d - 1) + step := by omega
      rw [h2, Nat.add_div_right _ hstep]
      rcases le_or_lt d step with hds | hds
      · have h3 : d - step = 0 := by omega
        rw [h3, Nat.zero_add, Nat.div_eq_of_lt (by omega : step - 1 < step),
          Nat.div_eq_of_lt (by omega : d - 1 < step)]
      · have h4 : d - step + (step - 1) = (d - step - 1) + step := by omega
        have h5 : d - 1 = (d - step - 1) + step := by omega
        rw [h4, h5, Nat.add_div_right _ hstep]
    · rw [chunkTextAux, if_neg hlt]
      have hz : text.length - i = 0 := by omega
      simp [hz, Nat.div_eq_of_lt (by omega : step - 1 < step)]

theorem chunkText_length (text : List Char) (size overlap : ℕ) (h : overlap < size) :
    (chunkText text size overlap).length
      = (text.length + (size - overlap) - 1) / (size - overlap) := by
  have hstep : 0 < size - overlap := by omega
  have hfuel : text.length ≤ 0 + (text.length + 1) * (size - overlap) := by
    have := Nat.mul_le_mul_left (text.length + 1) hstep
    omega
  rw [chunkText, chunkTextAux_length text size (size - overlap) hstep (text.length + 1) 0 hfuel]
  congr 1
  omega

theorem chunkText_nil (size overlap : ℕ) : chunkText [] size overlap = [] := by
  simp [chunkText, chunkTextAux]

theorem chunkText_single (text : List Char) (size overlap : ℕ) (h : overlap < size)
    (hne : text ≠ []) (hlen : text.length ≤ size - overlap) :
    chunkText text size overlap = [text] := by
  have hpos : 0 < text.length := List.length_pos.mpr hne
  rw [chunkText]
  obtain ⟨n, hn⟩ : ∃ n, text.length = n + 1 := ⟨text.length - 1, by omega⟩
  rw [hn, chunkTextAux, if_pos (by omega : 0 < text.length)]
  have htail : chunkTextAux text size (size - overlap) (n + 1) (0 + (size - overlap)) = [] := by
    rw [chunkTextAux, if_neg (by omega : ¬ 0 + (size - overlap) < text.length)]
  rw [htail, List.drop_zero, List.take_of_length_le (by omega : text.length ≤ size)]

/- ### Helper lemmas: reassembly -/

theorem chunkTextAux_reassemble_drop (text : List Char) (size overlap : ℕ) (h : overlap < size) :
    ∀ fuel i, text.length ≤ i + fuel * (size - overlap) →
      ((chunkTextAux text size (size - overlap) fuel i).map (List.drop overlap)).flatten
        = text.drop (i + overlap) := by
  intro fuel
  induction fuel with
  | zero =>
    intro i hi
    simp only [Nat.zero_mul, Nat.add_zero] at hi
    simp [chunkTextAux, List.drop_eq_nil_of_le (by omega : text.length ≤ i + overlap)]
  | succ fuel ih =>
    intro i hi
    rw [Nat.succ_mul] at hi
    by_cases hlt : i < text.length
    · rw [chunkTextAux, if_pos hlt, List.map_cons, List.flatten_cons,
        ih (i + (size - overlap)) (by omega)]
      rw [List.drop_take, List.drop_drop]
      have h1 : i + (size - overlap) + overlap = i + overlap + (size - overlap) := by omega
      rw [h1]
      have h2 : List.drop (i + overlap + (size - overlap)) text
          = List.drop (size - overlap) (List.drop (i + overlap) text) :=
        (List.drop_drop _ _ _).symm
      rw [h2]
      exact List.take_append_drop _ _
    · rw [chunkTextAux, if_neg hlt]
      simp [List.drop_eq_nil_of_le (by omega : text.length ≤ i + overlap)]

/- ### Helper lemmas: cosine similarity -/

theorem cosineAcc_eq (a : List ℚ) : ∀ b : List ℚ, a.length = b.length →
    cosineAcc a b = (specDot a b, sumSq a, sumSq b) := by
  induction a with
  | nil =>
    intro b hb
    have : b = [] := List.length_eq_zero.mp hb.symm
    subst this
    simp [cosineAcc, specDot, sumSq]
  | cons x xs ih =>
    intro b hb
    cases b with
    | nil => simp at hb
    | cons y ys =>
      have hxy : xs.length = ys.length := by simpa using hb
      simp only [cosineAcc, List.headD_cons, List.tail_cons, ih ys hxy]
      simp [specDot, sumSq]

theorem sumSq_nonneg (v : List ℚ) : 0 ≤ sumSq v := by
  induction v with
  | nil => simp [sumSq]
  | cons x xs ih =>
    simp only [sumSq, List.map_cons, List.sum_cons]
    have : 0 ≤ x * x := mul_self_nonneg x
    simp only [sumSq] at ih
    linarith

theorem sumSq_eq_zero_all_zero (v : List ℚ) (h : sumSq v = 0) : ∀ x ∈ v, x = 0 := by
  induction v with
  | nil => simp
  | cons x xs ih =>
    simp only [sumSq, List.map_cons, List.sum_cons] at h
    have h1 : 0 ≤ x * x := mul_self_nonneg x
    have h2 : 0 ≤ sumSq xs := sumSq_nonneg xs
    simp only [sumSq] at h2
    have hx : x * x = 0 := by linarith
    have hxs : sumSq xs = 0 := by simp only [sumSq]; linarith
    intro y hy
    rcases List.mem_cons.mp hy with rfl | hmem
    · exact mul_self_eq_zero.mp hx
    · exact ih hxs y hmem

theorem specDot_all_zero_left : ∀ a : List ℚ, (∀ x ∈ a, x = 0) → ∀ b, specDot a b = 0 := by
  intro a
  induction a with
  | nil => intro _ b; simp [specDot]
  | cons x xs ih =>
    intro hz b
    cases b with
    | nil => simp [specDot]
    | cons y ys =>
      have hx : x = 0 := hz x (by simp)
      simp only [specDot, List.zipWith_cons_cons, List.sum_cons, hx, zero_mul, zero_add]
      exact ih (fun z hzz => hz z (by simp [hzz])) ys

theorem specDot_eq_zero_left (a b : List ℚ) (h : sumSq a = 0) : specDot a b = 0 :=
  specDot_all_zero_left a (sumSq_eq_zero_all_zero a h) b

/- ### Claim C1: merge replaces whole paths -/

/-- C1: `merge` keeps exactly the existing records whose `path` occurs in
no new record, concatenated with the new records; hence for a path that
occurs among the new records, the merged count for that path is the new
count, and every merged record with that path is a new record (no record
of the previous generation survives). -/
theorem merge_replaces_paths (ex nw : List ChunkRecord) (p : List Char)
    (hp : p ∈ nw.map (fun n => n.path)) :
    (∀ r, r ∈ merge ex nw ↔ ((r ∈ ex ∧ ∀ n ∈ nw, n.path ≠ r.path) ∨ r ∈ nw))
    ∧ (merge ex nw).countP (fun r => decide (r.path = p))
        = nw.countP (fun r => decide (r.path = p))
    ∧ (∀ r ∈ merge ex nw, r.path = p → r ∈ nw) := by
  obtain ⟨n0, hn0mem, hn0p⟩ : ∃ n0 ∈ nw, n0.path = p := by
    simpa using hp
  have hmem : ∀ r, r ∈ merge ex nw ↔ ((r ∈ ex ∧ ∀ n ∈ nw, n.path ≠ r.path) ∨ r ∈ nw) := by
    intro r
    simp only [merge, List.mem_append, List.mem_filter, Bool.not_eq_true', List.any_eq_false,
      decide_eq_true_eq]
  refine ⟨hmem, ?_, ?_⟩
  · rw [merge, List.countP_append]
    have hz : (ex.filter (fun v => !(nw.any (fun n => n.path = v.path)))).countP
        (fun r => decide (r.path = p)) = 0 := by
      rw [List.countP_eq_zero]
      intro a ha
      rcases List.mem_filter.mp ha with ⟨_, hkeep⟩
      simp only [Bool.not_eq_true', List.any_eq_false, decide_eq_true_eq] at hkeep
      simp only [decide_eq_true_eq]
      intro hap
      exact hkeep n0 hn0mem (by rw [hn0p, hap])
    omega
  · intro r hr hrp
    rcases (hmem r).mp hr with ⟨_, hall⟩ | hnew
    · exact absurd (by rw [hn0p, hrp]) (hall n0 hn0mem)
    · exact hnew

/-- Witness for C1 at a concrete store: one old record and one new record
sharing the path of `recA`. -/
theorem merge_replaces_paths_witness :
    (∀ r, r ∈ merge [recA] [recB] ↔ ((r ∈ [recA] ∧ ∀ n ∈ [recB], n.path ≠ r.path) ∨ r ∈ [recB]))
    ∧ (merge [recA] [recB]).countP (fun r => decide (r.path = ("docs/a.txt").toList))
        = [recB].countP (fun r => decide (r.path = ("docs/a.txt").toList))
    ∧ (∀ r ∈ merge [recA] [recB], r.path = ("docs/a.txt").toList → r ∈ [recB]) :=
  merge_replaces_paths [recA] [recB] (("docs/a.txt").toList) (by decide)

/- ### Claim C2: chunk count -/

/-- C2 counterexample: a text of exactly 1000 characters with the default
parameters (size 1000, overlap 200) does NOT produce exactly 1 chunk: the
loop runs again at offset 800 < 1000 and emits a second, fully
overlapping 200-character tail chunk. -/
theorem chunkText_thousand_chars_not_one_chunk :
    ¬ (chunkText (List.replicate 1000 'a') 1000 200).length = 1 := by
  decide

/-- C2 (amended): the chunker yields `[]` on empty text; for every text
the number of windows is `ceil(text.length / (size - overlap))`, not
`ceil(max(0, text.length - overlap) / (size - overlap))`; a single window
equal to the whole text is produced exactly when
`text.length ≤ size - overlap` (not `≤ size`): for lengths in
`(size - overlap, size]` a redundant overlapping tail window is emitted
as well.  In particular 1000 characters at the defaults give 2 chunks. -/
theorem chunkText_count (text : List Char) (size overlap : ℕ) (h : overlap < size) :
    (text = [] → chunkText text size overlap = [])
    ∧ (chunkText text size overlap).length
        = (text.length + (size - overlap) - 1) / (size - overlap)
    ∧ (text ≠ [] → text.length ≤ size - overlap → chunkText text size overlap = [text])
    ∧ (chunkText (List.replicate 1000 'a') 1000 200).length = 2 := by
  refine ⟨?_, chunkText_length text size overlap h, ?_, by decide⟩
  · intro he; subst he; exact chunkText_nil size overlap
  · intro hne hlen; exact chunkText_single text size overlap h hne hlen

/-- Witness for C2 on a concrete text: "abc" with size 2, overlap 1
gives ceil(3/1) = 3 windows. -/
theorem chunkText_count_witness :
    ((['a', 'b', 'c'] : List Char) = [] → chunkText ['a', 'b', 'c'] 2 1 = [])
    ∧ (chunkText ['a', 'b', 'c'] 2 1).length = (3 + (2 - 1) - 1) / (2 - 1)
    ∧ ((['a', 'b', 'c'] : List Char) ≠ [] → 3 ≤ 2 - 1 → chunkText ['a', 'b', 'c'] 2 1 = [['a', 'b', 'c']])
    ∧ (chunkText (List.replicate 1000 'a') 1000 200).length = 2 := by
  have h := chunkText_count ['a', 'b', 'c'] 2 1 (by decide)
  simpa using h

/- ### Claim C6: reassembly -/

/-- C6: concatenating the first chunk with every later chunk stripped of
its first `overlap` characters reconstructs the text exactly, for every
text and valid parameters.  This holds for the code as written: each
window starts exactly `size - overlap` after its predecessor, so the
stripped windows tile the text, and a final fully-overlapping tail window
contributes the empty remainder. -/
theorem chunkText_reassembles (text : List Char) (size overlap : ℕ) (h : overlap < size) :
    reassemble overlap (chunkText text size overlap) = text := by
  have hstep : 0 < size - overlap := by omega
  rcases eq_or_ne text [] with rfl | hne
  · rw [chunkText_nil]; rfl
  · have hpos : 0 < text.length := List.length_pos.mpr hne
    obtain ⟨n, hn⟩ : ∃ n, text.length = n + 1 := ⟨text.length - 1, by omega⟩
    rw [chunkText, hn, chunkTextAux, if_pos (by omega : 0 < text.length)]
    rw [reassemble]
    have htail := chunkTextAux_reassemble_drop text size overlap h (n + 1) (0 + (size - overlap))
      (by
        have h1 : n + 1 ≤ (n + 1) * (size - overlap) := by
          have := Nat.mul_le_mul_left (n + 1) hstep
          omega
        omega)
    rw [htail]
    have h2 : 0 + (size - overlap) + overlap = size := by omega
    rw [h2, List.drop_zero, List.take_append_drop]

/-- Witness for C6 on a concrete text: "abcde" with size 3, overlap 1. -/
theorem chunkText_reassembles_witness :
    reassemble 1 (chunkText (("abcde").toList) 3 1) = ("abcde").toList :=
  chunkText_reassembles (("abcde").toList) 3 1 (by decide)

/- ### Claim C3: cosine similarity formula and the zero-norm case -/

/-- C3 counterexample: for the zero query vector `[0]` against the
record vector `[1]`, the code divides `0 / (0 * 1)` and produces NaN
(modelled `none`), not the score `0` the claim requires. -/
theorem cosineSimilarity_zero_norm_nan :
    cosineSimilarity [0] [1] = none ∧ cosineSimilarity [0] [1] ≠ some 0 := by
  have h : cosineSimilarity [0] [1] = none := by
    rw [cosineSimilarity, if_pos]
    norm_num [cosineAcc]
  exact ⟨h, by rw [h]; simp⟩

/-- C3 (amended): for equal-length vectors with nonzero norms the score
is exactly the arithmetic outcome of `dot / (normA * normB)` as the spec
writes it; but when either norm is zero the code computes `0 / 0 = NaN`
(modelled `none`), it does not return `0`. -/
theorem cosineSimilarity_formula (a b : List ℚ) (hl : a.length = b.length) :
    (sumSq a ≠ 0 → sumSq b ≠ 0 → cosineSimilarity a b = some (specCosineScore a b))
    ∧ ((sumSq a = 0 ∨ sumSq b = 0) → cosineSimilarity a b = none) := by
  have hacc := cosineAcc_eq a b hl
  constructor
  · intro ha hb
    rw [cosineSimilarity, if_neg (by rw [hacc]; push_neg; exact ⟨ha, hb⟩)]
    rw [cosineScoreR, hacc, specCosineScore, specNorm, specNorm]
  · intro hz
    rw [cosineSimilarity, if_pos (by rw [hacc]; exact hz)]

/-- Witness for C3 at the concrete one-dimensional vectors [3] and [4]. -/
theorem cosineSimilarity_formula_witness :
    (sumSq [(3 : ℚ)] ≠ 0 → sumSq [(4 : ℚ)] ≠ 0 →
      cosineSimilarity [3] [4] = some (specCosineScore [3] [4]))
    ∧ ((sumSq [(3 : ℚ)] = 0 ∨ sumSq [(4 : ℚ)] = 0) → cosineSimilarity [3] [4] = none) :=
  cosineSimilarity_formula [3] [4] (by decide)

/- ### Claim C5: search request validation -/

/-- C5 counterexample: a whitespace-only query against a nonempty store
is NOT rejected: `" "` is truthy in JS, so the handler proceeds directly
to the remote embedding call with the whitespace query as input. -/
theorem whitespace_query_not_rejected :
    semanticSearchGate [' '] [recA] = SearchAction.callEmbed [' '] := by
  decide

/-- C5 (amended): the handler rejects the request, before any remote
call, with the single combined HTTP 400 error "Invalid query or empty
index.", exactly when the store is empty or the query is the empty
string; there are no separate EmptyIndexError and InvalidQueryError
outcomes, and a whitespace-only nonempty query is not rejected: it is
sent to the remote embedding provider. -/
theorem semanticSearchGate_cases (query : List Char) (store : List ChunkRecord) :
    (store = [] → semanticSearchGate query store
      = SearchAction.reject 400 (("Invalid query or empty index.").toList))
    ∧ (query = [] → semanticSearchGate query store
      = SearchAction.reject 400 (("Invalid query or empty index.").toList))
    ∧ (query ≠ [] → store ≠ [] → semanticSearchGate query store = SearchAction.callEmbed query) := by
  refine ⟨fun hs => ?_, fun hq => ?_, fun hq hs => ?_⟩
  · rw [semanticSearchGate, if_pos (Or.inr hs)]
  · rw [semanticSearchGate, if_pos (Or.inl hq)]
  · rw [semanticSearchGate, if_neg (by push_neg; exact ⟨hq, hs⟩)]

/- ### Helper lemmas: deduplication -/

theorem mkHit_path (r : ScoredRecord) : (mkHit r).path = r.record.path := rfl

theorem dedupGo_path_not_seen :
    ∀ (l : List ScoredRecord) (seen : List (List Char)), ∀ h ∈ dedupGo seen l, h.path ∉ seen := by
  intro l
  induction l with
  | nil => intro seen h hh; simp [dedupGo] at hh
  | cons r rs ih =>
    intro seen h hh
    by_cases hmem : r.record.path ∈ seen
    · rw [dedupGo, if_pos hmem] at hh
      exact ih seen h hh
    · rw [dedupGo, if_neg hmem] at hh
      rcases List.mem_cons.mp hh with rfl | hh2
      · rw [mkHit_path]; exact hmem
      · have := ih (r.record.path :: seen) h hh2
        exact fun hs => this (List.mem_cons_of_mem _ hs)

theorem dedupGo_pairwise :
    ∀ (l : List ScoredRecord) (seen : List (List Char)),
      (dedupGo seen l).Pairwise (fun a b => a.path ≠ b.path) := by
  intro l
  induction l with
  | nil => intro seen; simp [dedupGo]
  | cons r rs ih =>
    intro seen
    by_cases hmem : r.record.path ∈ seen
    · rw [dedupGo, if_pos hmem]; exact ih seen
    · rw [dedupGo, if_neg hmem]
      refine List.Pairwise.cons ?_ (ih _)
      intro h hh
      have := dedupGo_path_not_seen rs (r.record.path :: seen) h hh
      rw [mkHit_path]
      exact fun he => this (he ▸ List.mem_cons_self _ _)

theorem dedupGo_decomp :
    ∀ (l : List ScoredRecord) (seen : List (List Char)), ∀ h ∈ dedupGo seen l,
      ∃ l₁ r l₂, l = l₁ ++ r :: l₂ ∧ h = mkHit r ∧ r.record.path ∉ seen
        ∧ ∀ x ∈ l₁, x.record.path ≠ r.record.path := by
  intro l
  induction l with
  | nil => intro seen h hh; simp [dedupGo] at hh
  | cons r rs ih =>
    intro seen h hh
    by_cases hmem : r.record.path ∈ seen
    · rw [dedupGo, if_pos hmem] at hh
      obtain ⟨l₁, r0, l₂, hsplit, hhit, hns, hpaths⟩ := ih seen h hh
      exact ⟨r :: l₁, r0, l₂, by rw [hsplit]; rfl, hhit, hns, by
        intro x hx
        rcases List.mem_cons.mp hx with rfl | hx2
        · exact fun he => hns (he ▸ hmem)
        · exact hpaths x hx2⟩
    · rw [dedupGo, if_neg hmem] at hh
      rcases List.mem_cons.mp hh with rfl | hh2
      · exact ⟨[], r, rs, rfl, rfl, hmem, by simp⟩
      · obtain ⟨l₁, r0, l₂, hsplit, hhit, hns, hpaths⟩ := ih (r.record.path :: seen) h hh2
        have hns2 : r0.record.path ∉ seen := fun hs => hns (List.mem_cons_of_mem _ hs)
        have hne : r.record.path ≠ r0.record.path := by
          intro he
          exact hns (he ▸ List.mem_cons_self _ _)
        exact ⟨r :: l₁, r0, l₂, by rw [hsplit]; rfl, hhit, hns2, by
          intro x hx
          rcases List.mem_cons.mp hx with rfl | hx2
          · exact hne
          · exact hpaths x hx2⟩

theorem dedupGo_complete :
    ∀ (l : List ScoredRecord) (seen : List (List Char)) (r : ScoredRecord), r ∈ l →
      r.record.path ∉ seen → ∃ h ∈ dedupGo seen l, h.path = r.record.path := by
  intro l
  induction l with
  | nil => intro seen r hr; simp at hr
  | cons x xs ih =>
    intro seen r hr hns
    by_cases hmem : x.record.path ∈ seen
    · rw [dedupGo, if_pos hmem]
      rcases List.mem_cons.mp hr with rfl | hr2
      · exact absurd hmem hns
      · exact ih seen r hr2 hns
    · rw [dedupGo, if_neg hmem]
      by_cases hpx : r.record.path = x.record.path
      · exact ⟨mkHit x, List.mem_cons_self _ _, by rw [mkHit_path, hpx]⟩
      · rcases List.mem_cons.mp hr with rfl | hr2
        · exact absurd rfl hpx
        · obtain ⟨h, hh, hp⟩ := ih (x.record.path :: seen) r hr2 (by
            intro hs
            rcases List.mem_cons.mp hs with he | hs2
            · exact hpx he
            · exact hns hs2)
          exact ⟨h, List.mem_cons_of_mem _ hh, hp⟩

theorem dedupGo_all_seen :
    ∀ (l : List ScoredRecord) (seen : List (List Char)),
      (∀ r ∈ l, r.record.path ∈ seen) → dedupGo seen l = [] := by
  intro l
  induction l with
  | nil => intro seen _; rfl
  | cons r rs ih =>
    intro seen hall
    rw [dedupGo, if_pos (hall r (List.mem_cons_self _ _))]
    exact ih seen (fun x hx => hall x (List.mem_cons_of_mem _ hx))

theorem dedupGo_single_path (l : List ScoredRecord) (p : List Char) (hne : l ≠ [])
    (hall : ∀ r ∈ l, r.record.path = p) : (dedupGo [] l).length = 1 := by
  cases l with
  | nil => exact absurd rfl hne
  | cons x xs =>
    have hx : x.record.path = p := hall x (List.mem_cons_self _ _)
    rw [dedupGo, if_neg (List.not_mem_nil _)]
    have : dedupGo (x.record.path :: []) xs = [] := by
      refine dedupGo_all_seen xs _ (fun r hr => ?_)
      rw [hall r (List.mem_cons_of_mem _ hr), ← hx]
      exact List.mem_cons_self _ _
    rw [this]
    rfl

/- ### Helper lemmas: the scored, sorted, filtered list -/

theorem mem_filterFloor (l : List ScoredRecord) (r : ScoredRecord) :
    r ∈ filterFloor l ↔ r ∈ l ∧ (1 / 4 : ℝ) < r.score := by
  rw [filterFloor, List.mem_filter]
  simp

theorem filterFloor_sorted (l : List ScoredRecord) (h : l.Pairwise scoreDescOrder) :
    (filterFloor l).Pairwise scoreDescOrder :=
  List.Pairwise.filter _ h

theorem sortRaw_pairwise (l : List ScoredRecord) : (sortRaw l).Pairwise scoreDescOrder :=
  List.sorted_insertionSort scoreDescOrder l

theorem sortRaw_mem (l : List ScoredRecord) (r : ScoredRecord) : r ∈ sortRaw l ↔ r ∈ l :=
  (List.perm_insertionSort scoreDescOrder l).mem_iff

theorem mem_scoreAll (q : List ℚ) (store : List ChunkRecord) (r : ScoredRecord) :
    r ∈ scoreAll q store ↔ ∃ doc ∈ store, r = ⟨doc, cosineScoreR q doc.embedding⟩ := by
  rw [scoreAll, List.mem_map]
  constructor
  · rintro ⟨doc, hdoc, rfl⟩; exact ⟨doc, hdoc, rfl⟩
  · rintro ⟨doc, hdoc, rfl⟩; exact ⟨doc, hdoc, rfl⟩

/-- The central characterization of `/api/semantic-search` results: every
returned hit is built by `mkHit` from a stored record that passed the
0.25 floor and whose score is maximal among all stored records sharing
its path. -/
theorem searchHits_winner (q : List ℚ) (store : List ChunkRecord) :
    ∀ h ∈ semanticSearchResults q store, ∃ doc ∈ store,
      h = mkHit ⟨doc, cosineScoreR q doc.embedding⟩
      ∧ (1 / 4 : ℝ) < cosineScoreR q doc.embedding
      ∧ ∀ d2 ∈ store, d2.path = doc.path →
          cosineScoreR q d2.embedding ≤ cosineScoreR q doc.embedding := by
  intro h hh
  have hh2 : h ∈ dedupGo [] (filterFloor (sortRaw (scoreAll q store))) :=
    (List.take_sublist 12 _).subset hh
  obtain ⟨l₁, r, l₂, hsplit, hhit, _, hpaths⟩ := dedupGo_decomp _ [] h hh2
  have hrmem : r ∈ filterFloor (sortRaw (scoreAll q store)) := by
    rw [hsplit]
    exact List.mem_append_right _ (List.mem_cons_self _ _)
  have hrL := (mem_filterFloor _ r).mp hrmem
  have hrscore : (1 / 4 : ℝ) < r.score := hrL.2
  obtain ⟨doc, hdoc, hr⟩ := (mem_scoreAll q store r).mp ((sortRaw_mem _ r).mp hrL.1)
  have hsorted : (filterFloor (sortRaw (scoreAll q store))).Pairwise scoreDescOrder :=
    filterFloor_sorted _ (sortRaw_pairwise _)
  refine ⟨doc, hdoc, by rw [hhit, hr], by rw [hr] at hrscore; exact hrscore, ?_⟩
  intro d2 hd2 hpath
  by_cases hfloor : (1 / 4 : ℝ) < cosineScoreR q d2.embedding
  · have hs2 : (⟨d2, cosineScoreR q d2.embedding⟩ : ScoredRecord)
        ∈ filterFloor (sortRaw (scoreAll q store)) := by
      rw [mem_filterFloor, sortRaw_mem, mem_scoreAll]
      exact ⟨⟨d2, hd2, rfl⟩, hfloor⟩
    rw [hsplit] at hs2
    rcases List.mem_append.mp hs2 with hin1 | hin2
    · exact absurd (by rw [hr, hpath]) (hpaths _ hin1)
    · rcases List.mem_cons.mp hin2 with he | hin3
      · rw [hr] at he
        have : cosineScoreR q d2.embedding = cosineScoreR q doc.embedding := by
          have := congrArg ScoredRecord.score he
          simpa using this
        exact le_of_eq this
      · rw [hsplit] at hsorted
        have hp2 := (List.pairwise_append.mp hsorted).2.1
        have := (List.pairwise_cons.mp hp2).1 _ hin3
        rw [scoreDescOrder] at this
        rw [hr] at this
        simpa using this
  · push_neg at hfloor
    have : cosineScoreR q d2.embedding ≤ r.score := le_trans hfloor (le_of_lt hrscore)
    rw [hr] at this
    simpa using this

/-- With every stored record sharing one path and every score above the
floor, the deduplicated result list has exactly one element. -/
theorem searchHits_single_path (q : List ℚ) (store : List ChunkRecord) (p : List Char)
    (hne : store ≠ []) (hall : ∀ r ∈ store, r.path = p)
    (hfloor : ∀ r ∈ store, (1 / 4 : ℝ) < cosineScoreR q r.embedding) :
    (semanticSearchResults q store).length = 1 := by
  have hkeep : filterFloor (sortRaw (scoreAll q store)) = sortRaw (scoreAll q store) := by
    rw [filterFloor, List.filter_eq_self]
    intro a ha
    obtain ⟨doc, hdoc, rfl⟩ := (mem_scoreAll q store a).mp ((sortRaw_mem _ a).mp ha)
    simpa using hfloor doc hdoc
  have hlen : (sortRaw (scoreAll q store)).length = store.length := by
    rw [sortRaw, (List.perm_insertionSort scoreDescOrder _).length_eq, scoreAll, List.length_map]
  have hne2 : sortRaw (scoreAll q store) ≠ [] := by
    intro he
    rw [he] at hlen
    exact hne (List.length_eq_zero.mp hlen.symm)
  have hallp : ∀ r ∈ sortRaw (scoreAll q store), r.record.path = p := by
    intro r hr
    obtain ⟨doc, hdoc, rfl⟩ := (mem_scoreAll q store r).mp ((sortRaw_mem _ r).mp hr)
    exact hall doc hdoc
  rw [semanticSearchResults, hkeep]
  rw [List.length_take, dedupGo_single_path _ p hne2 hallp]
  omega

/- ### Claim C4: deduplication keeps the best-scoring chunk per path -/

/-- C4: the semantic search result has at most one hit per `path`; the
hit kept for a path comes from a stored record that beats the 0.25 floor
and scores at least as high as every stored record with the same path
(first occurrence in the stable descending sort wins), and its summary is
built from that winning chunk; and when the whole store is chunks of one
file, all above the floor, exactly 1 hit is returned.  The two norm
hypotheses confine the statement to the regime where no NaN score arises,
which is where the real-arithmetic model is faithful to the JS floats. -/
theorem search_dedups_by_path (q : List ℚ) (store : List ChunkRecord)
    (hq : sumSq q ≠ 0)
    (hs : ∀ r ∈ store, sumSq r.embedding ≠ 0 ∧ r.embedding.length = q.length) :
    (semanticSearchResults q store).Pairwise (fun a b => a.path ≠ b.path)
    ∧ (∀ h ∈ semanticSearchResults q store, ∃ doc ∈ store,
        h.path = doc.path
        ∧ h.summary = doc.preview.take 150 ++ ("...").toList
        ∧ (1 / 4 : ℝ) < cosineScoreR q doc.embedding
        ∧ ∀ d2 ∈ store, d2.path = doc.path →
            cosineScoreR q d2.embedding ≤ cosineScoreR q doc.embedding)
    ∧ (∀ p, store ≠ [] → (∀ r ∈ store, r.path = p) →
        (∀ r ∈ store, (1 / 4 : ℝ) < cosineScoreR q r.embedding) →
        (semanticSearchResults q store).length = 1) := by
  refine ⟨?_, ?_, ?_⟩
  · rw [semanticSearchResults]
    exact List.Pairwise.sublist (List.take_sublist 12 _) (dedupGo_pairwise _ [])
  · intro h hh
    obtain ⟨doc, hdoc, hhit, hfl, hmax⟩ := searchHits_winner q store h hh
    exact ⟨doc, hdoc, by rw [hhit]; rfl, by rw [hhit]; rfl, hfl, hmax⟩
  · intro p hne hall hfl
    exact searchHits_single_path q store p hne hall hfl

/-- Witness for C4: the one-record store `[recA]` and the unit query. -/
theorem search_dedups_by_path_witness :
    (semanticSearchResults [1] [recA]).Pairwise (fun a b => a.path ≠ b.path)
    ∧ (∀ h ∈ semanticSearchResults [1] [recA], ∃ doc ∈ [recA],
        h.path = doc.path
        ∧ h.summary = doc.preview.take 150 ++ ("...").toList
        ∧ (1 / 4 : ℝ) < cosineScoreR [1] doc.embedding
        ∧ ∀ d2 ∈ [recA], d2.path = doc.path →
            cosineScoreR [1] d2.embedding ≤ cosineScoreR [1] doc.embedding)
    ∧ (∀ p, [recA] ≠ [] → (∀ r ∈ [recA], r.path = p) →
        (∀ r ∈ [recA], (1 / 4 : ℝ) < cosineScoreR [1] r.embedding) →
        (semanticSearchResults [1] [recA]).length = 1) :=
  search_dedups_by_path [1] [recA] (by norm_num [sumSq]) (by norm_num [recA, sumSq])

/- ### Claim C7: result limit and preview truncation -/

/-- Full concrete evaluation of the pipeline on the one-record store
`[recA]` with the unit query: the single record scores exactly 1. -/
theorem searchResults_recA : semanticSearchResults [1] [recA] = [mkHit ⟨recA, 1⟩] := by
  have hs1 : cosineScoreR [1] recA.embedding = 1 := by
    have he : recA.embedding = [1] := rfl
    rw [he, cosineScoreR]
    norm_num [cosineAcc, List.headD_cons, List.tail_cons, Real.sqrt_one]
  have h1 : scoreAll [1] [recA] = [⟨recA, 1⟩] := by
    simp only [scoreAll, List.map_cons, List.map_nil, hs1]
  have h2 : sortRaw [(⟨recA, 1⟩ : ScoredRecord)] = [⟨recA, 1⟩] := by
    simp [sortRaw]
  have h3 : filterFloor [(⟨recA, 1⟩ : ScoredRecord)] = [⟨recA, 1⟩] := by
    rw [filterFloor, List.filter_cons_of_pos (by norm_num), List.filter_nil]
  have h4 : dedupGo [] [(⟨recA, 1⟩ : ScoredRecord)] = [mkHit ⟨recA, 1⟩] := by
    simp only [dedupGo]
    rw [if_neg (List.not_mem_nil _)]
  rw [semanticSearchResults, h1, h2, h3, h4]
  rfl

/-- C7 counterexample: the preview "hello" is 5 characters, far below
the 150-character display limit, so no truncation occurs; yet the
returned summary is "hello..." — the ellipsis marker is appended
unconditionally, contradicting the "only when truncation occurred"
clause of the claim. -/
theorem ellipsis_without_truncation :
    (semanticSearchResults [1] [recA]).map (fun h => h.summary) = [("hello...").toList]
    ∧ (("hello").toList).length ≤ 150 := by
  constructor
  · rw [searchResults_recA, List.map_cons, List.map_nil]
    rw [show (mkHit (⟨recA, 1⟩ : ScoredRecord)).summary
      = (("hello").toList).take 150 ++ ("...").toList from rfl]
    decide
  · decide

/-- C7 (amended): at most the first 12 deduplicated hits are returned,
and each summary is the winning chunk preview truncated to 150
characters with the ellipsis marker appended unconditionally — also when
the preview was 150 characters or shorter and no truncation occurred. -/
theorem search_limit_and_summary (q : List ℚ) (store : List ChunkRecord)
    (hq : sumSq q ≠ 0)
    (hs : ∀ r ∈ store, sumSq r.embedding ≠ 0 ∧ r.embedding.length = q.length) :
    (semanticSearchResults q store).length ≤ 12
    ∧ ∀ h ∈ semanticSearchResults q store, ∃ doc ∈ store,
        h.path = doc.path
        ∧ h.summary = doc.preview.take 150 ++ ("...").toList
        ∧ ∀ d2 ∈ store, d2.path = doc.path →
            cosineScoreR q d2.embedding ≤ cosineScoreR q doc.embedding := by
  constructor
  · rw [semanticSearchResults, List.length_take]
    exact min_le_left _ _
  · intro h hh
    obtain ⟨doc, hdoc, hhit, _, hmax⟩ := searchHits_winner q store h hh
    exact ⟨doc, hdoc, by rw [hhit]; rfl, by rw [hhit]; rfl, hmax⟩

/-- Witness for C7 (amended) at the one-record store. -/
theorem search_limit_and_summary_witness :
    (semanticSearchResults [1] [recA]).length ≤ 12
    ∧ ∀ h ∈ semanticSearchResults [1] [recA], ∃ doc ∈ [recA],
        h.path = doc.path
        ∧ h.summary = doc.preview.take 150 ++ ("...").toList
        ∧ ∀ d2 ∈ [recA], d2.path = doc.path →
            cosineScoreR [1] d2.embedding ≤ cosineScoreR [1] doc.embedding :=
  search_limit_and_summary [1] [recA] (by norm_num [sumSq]) (by norm_num [recA, sumSq])

/- ### Claim C10: the score is observable in the keywords field -/

/-- C10: every returned hit carries a one-element `keywords` list whose
element is the winning cosine score times 100, rounded to the nearest
integer (ties toward the larger integer, the behavior of `toFixed(0)`),
rendered as a percentage string — so the similarity score of the winning
chunk is observable in the public search output. -/
theorem search_keywords_show_score (q : List ℚ) (store : List ChunkRecord)
    (hq : sumSq q ≠ 0)
    (hs : ∀ r ∈ store, sumSq r.embedding ≠ 0 ∧ r.embedding.length = q.length) :
    ∀ h ∈ semanticSearchResults q store, ∃ doc ∈ store,
      h.path = doc.path
      ∧ h.keywords
          = [(toString (round (cosineScoreR q doc.embedding * 100))).toList ++ ("% Match").toList]
      ∧ (1 / 4 : ℝ) < cosineScoreR q doc.embedding
      ∧ ∀ d2 ∈ store, d2.path = doc.path →
          cosineScoreR q d2.embedding ≤ cosineScoreR q doc.embedding := by
  intro h hh
  obtain ⟨doc, hdoc, hhit, hfl, hmax⟩ := searchHits_winner q store h hh
  exact ⟨doc, hdoc, by rw [hhit]; rfl, by rw [hhit]; rfl, hfl, hmax⟩

/-- Witness for C10 at the one-record store, instantiated at its single
concrete hit. -/
theorem search_keywords_show_score_witness :
    ∃ doc ∈ [recA],
      (mkHit (⟨recA, 1⟩ : ScoredRecord)).path = doc.path
      ∧ (mkHit (⟨recA, 1⟩ : ScoredRecord)).keywords
          = [(toString (round (cosineScoreR [1] doc.embedding * 100))).toList ++ ("% Match").toList]
      ∧ (1 / 4 : ℝ) < cosineScoreR [1] doc.embedding
      ∧ ∀ d2 ∈ [recA], d2.path = doc.path →
          cosineScoreR [1] d2.embedding ≤ cosineScoreR [1] doc.embedding :=
  search_keywords_show_score [1] [recA] (by norm_num [sumSq]) (by norm_num [recA, sumSq])
    (mkHit ⟨recA, 1⟩) (by rw [searchResults_recA]; exact List.mem_singleton_self _)

/- ### Helper lemmas: one step of the indexing walker -/

theorem processFile_skip_content (extract : List Char → List Char) (embed : List Char → List ℚ)
    (st : IndexRunState) (f : FileEntry) (hskip : skipEntry f = false)
    (hlen : ¬ 50 < (extract (entryPath f)).length) :
    processFile extract embed st f =
      ⟨st.newVectors, st.filesProcessed + 1, st.totalFiles + 1,
        st.events ++ [⟨st.filesProcessed + 1, st.totalFiles + 1, ("indexing").toList⟩]⟩ := by
  simp [processFile, hskip, hlen]

theorem processFile_rich_content (extract : List Char → List Char) (embed : List Char → List ℚ)
    (st : IndexRunState) (f : FileEntry) (hskip : skipEntry f = false)
    (hlen : 50 < (extract (entryPath f)).length) :
    processFile extract embed st f =
      ⟨st.newVectors ++ ((chunkText (extract (entryPath f))).take 5).map (fun chunk =>
          ⟨entryPath f, f.name, normalizePath (entryPath f), embed chunk, chunk⟩),
        st.filesProcessed + 1, st.totalFiles + 1,
        st.events ++ [⟨st.filesProcessed + 1, st.totalFiles + 1, ("indexing").toList⟩]⟩ := by
  simp [processFile, hskip, hlen]

/- ### Claim C8: an unreadable file never aborts the run -/

/-- C8: for a directory containing one unreadable file `u` (the
`extractText` collaborator of this server resolves the empty string on
extraction errors, it never rejects) and one valid 2000-character file
`v`, in either walk order: the run completes (the model is a total
function, and the handler absorbs the failure into the short-content
skip), at least one record (in fact 3) is produced for the valid file,
and the final progress line reports `filesProcessed = 2`. -/
theorem indexing_survives_unreadable (extract : List Char → List Char)
    (embed : List Char → List ℚ) (u v : FileEntry) (files : List FileEntry)
    (horder : files = [u, v] ∨ files = [v, u])
    (hu : skipEntry u = false) (hv : skipEntry v = false)
    (hux : extract (entryPath u) = [])
    (hvx : (extract (entryPath v)).length = 2000) :
    (indexRun extract embed files).filesProcessed = 2
    ∧ 1 ≤ ((indexRun extract embed files).newVectors.filter
        (fun r => decide (r.path = normalizePath (entryPath v)))).length
    ∧ (indexRun extract embed files).events.getLast?
        = some ⟨2, 2, ("indexing").toList⟩ := by
  have hulen : ¬ 50 < (extract (entryPath u)).length := by rw [hux]; simp
  have hvlen : 50 < (extract (entryPath v)).length := by rw [hvx]; norm_num
  have hfilter : ((((chunkText (extract (entryPath v))).take 5).map (fun chunk =>
      (⟨entryPath v, v.name, normalizePath (entryPath v), embed chunk, chunk⟩ : ChunkRecord))).filter
        (fun r => decide (r.path = normalizePath (entryPath v))))
      = ((chunkText (extract (entryPath v))).take 5).map (fun chunk =>
          (⟨entryPath v, v.name, normalizePath (entryPath v), embed chunk, chunk⟩ : ChunkRecord)) := by
    rw [List.filter_eq_self]
    intro a ha
    obtain ⟨c, _, rfl⟩ := List.mem_map.mp ha
    simp
  have hLlen : (((chunkText (extract (entryPath v))).take 5).map (fun chunk =>
      (⟨entryPath v, v.name, normalizePath (entryPath v), embed chunk, chunk⟩ : ChunkRecord))).length
      = 3 := by
    rw [List.length_map, List.length_take, chunkText_length _ 1000 200 (by norm_num), hvx]
    decide
  rcases horder with rfl | rfl
  · rw [indexRun, List.foldl_cons,
      processFile_skip_content extract embed _ u hu hulen, List.foldl_cons,
      processFile_rich_content extract embed _ v hv hvlen, List.foldl_nil]
    refine ⟨rfl, ?_, ?_⟩
    · simp only [List.nil_append]
      rw [hfilter, hLlen]
      norm_num
    · simp only [List.nil_append]
      exact List.getLast?_concat _
  · rw [indexRun, List.foldl_cons,
      processFile_rich_content extract embed _ v hv hvlen, List.foldl_cons,
      processFile_skip_content extract embed _ u hu hulen, List.foldl_nil]
    refine ⟨rfl, ?_, ?_⟩
    · simp only [List.nil_append]
      rw [hfilter, hLlen]
      norm_num
    · simp only [List.nil_append]
      exact List.getLast?_concat _

/-- Witness for C8: a concrete two-file directory with a concrete
extractor that fails (yields the empty string) on the first file and
yields 2000 characters for the second. -/
theorem indexing_survives_unreadable_witness :
    (indexRun
        (fun p => if p = entryPath ⟨("d").toList, ("bad.txt").toList⟩ then []
          else List.replicate 2000 'x')
        (fun _ => [])
        [⟨("d").toList, ("bad.txt").toList⟩, ⟨("d").toList, ("good.txt").toList⟩]).filesProcessed = 2
    ∧ 1 ≤ ((indexRun
        (fun p => if p = entryPath ⟨("d").toList, ("bad.txt").toList⟩ then []
          else List.replicate 2000 'x')
        (fun _ => [])
        [⟨("d").toList, ("bad.txt").toList⟩, ⟨("d").toList, ("good.txt").toList⟩]).newVectors.filter
        (fun r => decide (r.path
          = normalizePath (entryPath ⟨("d").toList, ("good.txt").toList⟩)))).length
    ∧ (indexRun
        (fun p => if p = entryPath ⟨("d").toList, ("bad.txt").toList⟩ then []
          else List.replicate 2000 'x')
        (fun _ => [])
        [⟨("d").toList, ("bad.txt").toList⟩, ⟨("d").toList, ("good.txt").toList⟩]).events.getLast?
        = some ⟨2, 2, ("indexing").toList⟩ :=
  indexing_survives_unreadable
    (fun p => if p = entryPath ⟨("d").toList, ("bad.txt").toList⟩ then []
      else List.replicate 2000 'x')
    (fun _ => [])
    ⟨("d").toList, ("bad.txt").toList⟩ ⟨("d").toList, ("good.txt").toList⟩
    [⟨("d").toList, ("bad.txt").toList⟩, ⟨("d").toList, ("good.txt").toList⟩]
    (Or.inl rfl) (by decide) (by decide) (by simp)
    (by
      have hne : entryPath (⟨("d").toList, ("good.txt").toList⟩ : FileEntry)
          ≠ entryPath (⟨("d").toList, ("bad.txt").toList⟩ : FileEntry) := by decide
      show (if entryPath (⟨("d").toList, ("good.txt").toList⟩ : FileEntry)
          = entryPath (⟨("d").toList, ("bad.txt").toList⟩ : FileEntry) then ([] : List Char)
          else List.replicate 2000 'x').length = 2000
      rw [if_neg hne, List.length_replicate])

/- ### Claim C9: progress is monotone -/

theorem processFile_events_mono (extract : List Char → List Char) (embed : List Char → List ℚ)
    (st : IndexRunState) (f : FileEntry)
    (hpw : (st.events.map (fun e => e.filesProcessed)).Pairwise (· ≤ ·))
    (hub : ∀ e ∈ st.events, e.filesProcessed ≤ st.filesProcessed) :
    ((processFile extract embed st f).events.map (fun e => e.filesProcessed)).Pairwise (· ≤ ·)
    ∧ ∀ e ∈ (processFile extract embed st f).events,
        e.filesProcessed ≤ (processFile extract embed st f).filesProcessed := by
  by_cases hskip : skipEntry f = true
  · rw [processFile, if_pos hskip]
    exact ⟨hpw, hub⟩
  · have hskip2 : skipEntry f = false := by simpa using hskip
    have hev : (processFile extract embed st f).events
        = st.events ++ [⟨st.filesProcessed + 1, st.totalFiles + 1, ("indexing").toList⟩] := by
      simp [processFile, hskip2]
    have hfp : (processFile extract embed st f).filesProcessed = st.filesProcessed + 1 := by
      simp [processFile, hskip2]
    constructor
    · rw [hev, List.map_append, List.pairwise_append]
      refine ⟨hpw, by simp, ?_⟩
      intro a ha b hb
      obtain ⟨e, he, rfl⟩ := List.mem_map.mp ha
      simp only [List.map_cons, List.map_nil, List.mem_singleton] at hb
      subst hb
      exact le_trans (hub e he) (Nat.le_succ _)
    · intro e he
      rw [hfp]
      rw [hev] at he
      rcases List.mem_append.mp he with hold | hnew
      · exact le_trans (hub e hold) (Nat.le_succ _)
      · rw [List.mem_singleton.mp hnew]

theorem indexRun_go_mono (extract : List Char → List Char) (embed : List Char → List ℚ) :
    ∀ (files : List FileEntry) (st : IndexRunState),
      (st.events.map (fun e => e.filesProcessed)).Pairwise (· ≤ ·) →
      (∀ e ∈ st.events, e.filesProcessed ≤ st.filesProcessed) →
      ((files.foldl (processFile extract embed) st).events.map
        (fun e => e.filesProcessed)).Pairwise (· ≤ ·) := by
  intro files
  induction files with
  | nil => intro st hpw _; exact hpw
  | cons f fs ih =>
    intro st hpw hub
    rw [List.foldl_cons]
    obtain ⟨hpw2, hub2⟩ := processFile_events_mono extract embed st f hpw hub
    exact ih _ hpw2 hub2

/-- C9: over any single `/api/index-files` run, in the order the progress
lines are written, the reported `filesProcessed` values never decrease:
the handler increments one shared counter and then writes it, so each
line carries a value strictly larger than every earlier line.  This also
covers interleavings of the per-directory walkers, since any interleaving
is some arrival order of the files and the counter is shared. -/
theorem progress_monotone (extract : List Char → List Char) (embed : List Char → List ℚ)
    (files : List FileEntry) :
    ((indexRun extract embed files).events.map (fun e => e.filesProcessed)).Pairwise (· ≤ ·) :=
  indexRun_go_mono extract embed files ⟨[], 0, 0, []⟩ (by simp) (by simp)
